import Mathlib

/-!
Verification of `mleip`: numpy logistic regression and torch data adapter.

Shallow embedding of `src/logistic_regression.py` (class `LogisticRegression`,
the hand-rolled numpy version) and `src/data_torch.py` (class `CustomDataset`).
Numpy float arrays are modelled over the reals; an `n`-vector is a function
`ℕ → ℝ` read on `[0, n)` and an `m × n` matrix is `ℕ → ℕ → ℝ` read on rows
`[0, m)` and columns `[0, n)`.  Elementwise numpy operations become pointwise
operations on these functions, `np.matmul`/`np.mean`/`np.sum` become
`Finset.range` sums.
-/

open Real Finset

namespace Mleip

/-- Embeds `LogisticRegression._sigmoid`:
`logit_max = np.maximum(0, logit); logit_stable = logit - logit_max;
 return np.exp(logit_stable) / (np.exp(-logit_max) + np.exp(logit_stable))`,
as a scalar function (numpy applies it elementwise). -/
noncomputable def sigmoid (logit : ℝ) : ℝ :=
  Real.exp (logit - max 0 logit) /
    (Real.exp (-(max 0 logit)) + Real.exp (logit - max 0 logit))

/-- The naive sigmoid `1 / (1 + exp(-z))` that `_sigmoid`'s docstring says it
stabilizes. -/
noncomputable def naiveSigmoid (z : ℝ) : ℝ :=
  1 / (1 + Real.exp (-z))

/-- The stabilized `log(1 + exp z)` used inside `LogisticRegression._loss`:
`logsumexp_stable = logit_max + np.log(np.exp(-logit_max) + np.exp(logit_stable))`. -/
noncomputable def logsumexpStable (logit : ℝ) : ℝ :=
  max 0 logit + Real.log (Real.exp (-(max 0 logit)) + Real.exp (logit - max 0 logit))

/-- Embeds the per-example term of `LogisticRegression._loss`:
`self._cross_entropy = -(y * (logit - logsumexp_stable) + (1 - y) * (-logsumexp_stable))`. -/
noncomputable def crossEnt (y logit : ℝ) : ℝ :=
  -(y * (logit - logsumexpStable logit) + (1 - y) * (-(logsumexpStable logit)))

/-- Embeds the return value of `LogisticRegression._loss`,
`np.mean(self._cross_entropy)`, over a batch of `m` labels and logits. -/
noncomputable def meanLoss (y logit : ℕ → ℝ) (m : ℕ) : ℝ :=
  (∑ i ∈ Finset.range m, crossEnt (y i) (logit i)) / m

lemma sigmoid_eq_naive (z : ℝ) : sigmoid z = naiveSigmoid z := by
  unfold sigmoid naiveSigmoid
  rcases le_total z 0 with hz | hz
  · rw [max_eq_left hz, sub_zero, neg_zero, Real.exp_zero]
    rw [div_eq_div_iff (by positivity) (by positivity)]
    have h : Real.exp z * Real.exp (-z) = 1 := by rw [← Real.exp_add]; simp
    nlinarith [h]
  · rw [max_eq_right hz, sub_self, Real.exp_zero]
    rw [div_eq_div_iff (by positivity) (by positivity)]
    ring

/-- The stable sigmoid also equals `exp z / (1 + exp z)`. -/
lemma sigmoid_eq_exp_div (z : ℝ) : sigmoid z = Real.exp z / (1 + Real.exp z) := by
  rw [sigmoid_eq_naive]
  unfold naiveSigmoid
  rw [div_eq_div_iff (by positivity) (by positivity)]
  have h : Real.exp z * Real.exp (-z) = 1 := by rw [← Real.exp_add]; simp
  nlinarith [h]

lemma sigmoid_pos (z : ℝ) : 0 < sigmoid z := by
  rw [sigmoid_eq_exp_div]; positivity

lemma sigmoid_lt_one (z : ℝ) : sigmoid z < 1 := by
  rw [sigmoid_eq_exp_div]
  rw [div_lt_one (by positivity)]
  linarith [Real.exp_pos z]

lemma one_sub_sigmoid (z : ℝ) : 1 - sigmoid z = 1 / (1 + Real.exp z) := by
  rw [sigmoid_eq_exp_div]
  field_simp

/-- The stabilized log-sum-exp equals `log (1 + exp z)`. -/
lemma logsumexpStable_eq (z : ℝ) :
    logsumexpStable z = Real.log (1 + Real.exp z) := by
  unfold logsumexpStable
  rcases le_total z 0 with hz | hz
  · rw [max_eq_left hz, sub_zero, neg_zero, Real.exp_zero, zero_add]
  · rw [max_eq_right hz, sub_self, Real.exp_zero]
    have h : Real.exp (-z) + 1 = Real.exp (-z) * (1 + Real.exp z) := by
      have hmul : Real.exp (-z) * Real.exp z = 1 := by rw [← Real.exp_add]; simp
      nlinarith [hmul]
    rw [h, Real.log_mul (by positivity) (by positivity), Real.log_exp]
    ring

/-- The value `log (1 + exp z)` is strictly positive. -/
lemma logsumexpStable_pos (z : ℝ) : 0 < logsumexpStable z := by
  rw [logsumexpStable_eq]
  apply Real.log_pos
  linarith [Real.exp_pos z]

/-- The per-example stabilized cross entropy simplifies to `log(1+exp z) - y*z`. -/
lemma crossEnt_eq (y z : ℝ) :
    crossEnt y z = logsumexpStable z - y * z := by
  unfold crossEnt; ring

lemma log_sigmoid (z : ℝ) :
    Real.log (sigmoid z) = z - logsumexpStable z := by
  rw [sigmoid_eq_exp_div, logsumexpStable_eq,
    Real.log_div (by positivity) (by positivity), Real.log_exp]

lemma log_one_sub_sigmoid (z : ℝ) :
    Real.log (1 - sigmoid z) = -(logsumexpStable z) := by
  rw [one_sub_sigmoid, logsumexpStable_eq, one_div,
    Real.log_inv]

/-- Per-example cross entropy is strictly positive for 0/1 labels. -/
lemma crossEnt_pos (y z : ℝ) (hy : y = 0 ∨ y = 1) : 0 < crossEnt y z := by
  rcases hy with hy | hy
  · rw [crossEnt_eq, hy]
    simpa using logsumexpStable_pos z
  · rw [crossEnt_eq, hy, one_mul, logsumexpStable_eq]
    have h : Real.log (1 + Real.exp z) - z
        = Real.log (1 + Real.exp (-z)) := by
      have h1 : 1 + Real.exp z = Real.exp z * (1 + Real.exp (-z)) := by
        have hmul : Real.exp z * Real.exp (-z) = 1 := by rw [← Real.exp_add]; simp
        nlinarith [hmul]
      rw [h1, Real.log_mul (by positivity) (by positivity), Real.log_exp]
      ring
    rw [h]
    apply Real.log_pos
    linarith [Real.exp_pos (-z)]

/-- C1. The stabilized sigmoid computed by `_sigmoid` equals the naive
`1/(1+exp(-z))` at every real logit, and its value lies strictly in `(0, 1)`
(in the real-number model the expression is everywhere defined and finite). -/
theorem C1_sigmoid_stable (z : ℝ) :
    sigmoid z = 1 / (1 + Real.exp (-z)) ∧ 0 < sigmoid z ∧ sigmoid z < 1 :=
  ⟨sigmoid_eq_naive z, sigmoid_pos z, sigmoid_lt_one z⟩

/-- C2. For 0/1 labels the stabilized per-example loss computed by `_loss`
equals binary cross entropy `-(y*log(sigmoid z) + (1-y)*log(1-sigmoid z))`,
each per-example loss is strictly positive at every finite logit, and the
batch loss (the mean over any batch of 0/1 labels) is non-negative. -/
theorem C2_loss_cross_entropy (y z : ℝ) (hy : y = 0 ∨ y = 1)
    (ys zs : ℕ → ℝ) (m : ℕ) (hys : ∀ i, i < m → ys i = 0 ∨ ys i = 1) :
    crossEnt y z
      = -(y * Real.log (sigmoid z) + (1 - y) * Real.log (1 - sigmoid z))
    ∧ 0 < crossEnt y z
    ∧ 0 ≤ meanLoss ys zs m := by
  refine ⟨?_, crossEnt_pos y z hy, ?_⟩
  · rw [log_sigmoid, log_one_sub_sigmoid, crossEnt_eq]
    ring
  · unfold meanLoss
    apply div_nonneg _ (Nat.cast_nonneg m)
    apply Finset.sum_nonneg
    intro i hi
    exact le_of_lt (crossEnt_pos _ _ (hys i (Finset.mem_range.mp hi)))

/-- Witness for C2 at `y = 1`, `z = 0`, batch `m = 2` with labels `0, 1`. -/
theorem C2_loss_cross_entropy_witness :
    ((1:ℝ) = 0 ∨ (1:ℝ) = 1)
    ∧ (∀ i, i < 2 → (fun i => if i = 0 then (0:ℝ) else 1) i = 0
        ∨ (fun i => if i = 0 then (0:ℝ) else 1) i = 1)
    ∧ (crossEnt 1 0
        = -(1 * Real.log (sigmoid 0) + (1 - 1) * Real.log (1 - sigmoid 0))
      ∧ 0 < crossEnt 1 0
      ∧ 0 ≤ meanLoss (fun i => if i = 0 then (0:ℝ) else 1) (fun _ => 0) 2) :=
  ⟨Or.inr rfl, fun i _ => by by_cases h : i = 0 <;> simp [h],
    C2_loss_cross_entropy 1 0 (Or.inr rfl) _ _ 2
      (fun i _ => by by_cases h : i = 0 <;> simp [h])⟩

/-- The mutable attributes of a `LogisticRegression` object.  `__init__` sets
`_batch_size`, `_lr`, `_n_epochs`; `get_dataset` sets `_X_train`, `_y_train`,
`_n_examples`, `_n_inputs`; `_create_weights` sets `_w`, `_b`; `_loss` sets
`_cross_entropy`.  Arrays are functions read on `[0, n_examples)` /
`[0, n_inputs)`. -/
structure LR where
  batch_size : ℕ
  lr : ℝ
  n_epochs : ℕ
  n_examples : ℕ
  n_inputs : ℕ
  X_train : ℕ → ℕ → ℝ
  y_train : ℕ → ℝ
  w : ℕ → ℝ
  b : ℝ
  cross_entropy : ℕ → ℝ

/-- Embeds `LogisticRegression.get_dataset`: stores the training arrays and
their shape `(m, n)`, and when `shuffle` is true reindexes both stored arrays
by the list `perm`, the value of `idx = list(range(m))` after
`random.shuffle(idx)`. -/
noncomputable def getDataset (st : LR) (X : ℕ → ℕ → ℝ) (y : ℕ → ℝ)
    (m n : ℕ) (shuffle : Bool) (perm : List ℕ) : LR :=
  if shuffle then
    { st with n_examples := m, n_inputs := n,
              X_train := fun i j => X (perm.getD i 0) j,
              y_train := fun i => y (perm.getD i 0) }
  else
    { st with n_examples := m, n_inputs := n, X_train := X, y_train := y }

/-- Embeds `LogisticRegression._create_weights`:
`self._w = np.zeros(self._n_inputs)...; self._b = np.zeros(1)...`. -/
noncomputable def createWeights (st : LR) : LR :=
  { st with w := fun _ => 0, b := 0 }

/-- Embeds `LogisticRegression._logit`: `np.matmul(X, self._w) + self._b`. -/
noncomputable def logitArr (st : LR) (X : ℕ → ℕ → ℝ) : ℕ → ℝ :=
  fun i => (∑ j ∈ Finset.range st.n_inputs, X i j * st.w j) + st.b

/-- Embeds `LogisticRegression._model`: `self._sigmoid(self._logit(X))`. -/
noncomputable def modelArr (st : LR) (X : ℕ → ℕ → ℝ) : ℕ → ℝ :=
  fun i => sigmoid (logitArr st X i)

/-- The weight gradient of `_optimize`:
`dw = -1 / m * np.matmul(X.T, y - y_hat)` with `y_hat = self._model(X)`. -/
noncomputable def gradW (st : LR) (X : ℕ → ℕ → ℝ) (y : ℕ → ℝ) (m : ℕ) :
    ℕ → ℝ :=
  fun j => -1 / m * ∑ i ∈ Finset.range m, X i j * (y i - modelArr st X i)

/-- The bias gradient of `_optimize`: `db = -np.mean(y - y_hat)`. -/
noncomputable def gradB (st : LR) (X : ℕ → ℕ → ℝ) (y : ℕ → ℝ) (m : ℕ) : ℝ :=
  -((∑ i ∈ Finset.range m, (y i - modelArr st X i)) / m)

/-- Embeds `LogisticRegression._optimize`: replaces `w` and `b` by
`param - lr * grad` (the in-place `param[:] = param - self._lr * grad`). -/
noncomputable def optimize (st : LR) (X : ℕ → ℕ → ℝ) (y : ℕ → ℝ) (m : ℕ) :
    LR :=
  { st with w := fun j => st.w j - st.lr * gradW st X y m j,
            b := st.b - st.lr * gradB st X y m }

/-- Embeds `LogisticRegression._loss` as a state transformer: stores the
per-example stabilized cross entropy in `self._cross_entropy` and returns its
mean. -/
noncomputable def lossUpdate (st : LR) (y logit : ℕ → ℝ) (m : ℕ) : ℝ × LR :=
  (meanLoss y logit m,
    { st with cross_entropy := fun i => crossEnt (y i) (logit i) })

/-- Chunking recursion with explicit fuel: emits `l.take s`, recurses on
`l.drop s`.  With `fuel = l.length` and `s ≥ 1` this is total. -/
def chunksAux {α : Type} : ℕ → List α → ℕ → List (List α)
  | 0, _, _ => []
  | _ + 1, [], _ => []
  | fuel + 1, x :: xs, s => (x :: xs).take s :: chunksAux fuel ((x :: xs).drop s) s

/-- Embeds the index slices produced by `LogisticRegression._fetch_batch`:
`idx = list(range(n_examples)); for i in range(0, n_examples, batch_size):
 yield idx[i:min(i + batch_size, n_examples)]` — the successive slices of
`idx` of length `batch_size` (the last one possibly shorter). -/
def fetchBatchIdx (n s : ℕ) : List (List ℕ) :=
  chunksAux n (List.range n) s

/-- The rows of the stored training arrays selected by one yielded batch
(`self._X_train.take(idx_batch, axis=0)` and likewise for `y`). -/
noncomputable def batchX (st : LR) (idxb : List ℕ) : ℕ → ℕ → ℝ :=
  fun i j => st.X_train (idxb.getD i 0) j

noncomputable def batchY (st : LR) (idxb : List ℕ) : ℕ → ℝ :=
  fun i => st.y_train (idxb.getD i 0)

/-- The body of `fit`'s inner loop for one batch: `self._optimize(X_b, y_b)`
followed by `self._loss(y_b, self._logit(X_b))` (with the already updated
weights).  The printed `total_loss` accumulator does not touch object state
and is omitted. -/
noncomputable def fitBatch (st : LR) (idxb : List ℕ) : LR :=
  let st1 := optimize st (batchX st idxb) (batchY st idxb) idxb.length
  (lossUpdate st1 (batchY st1 idxb) (logitArr st1 (batchX st1 idxb))
    idxb.length).2

/-- One epoch of `fit`: folds the batch body over the batches yielded by
`_fetch_batch`. -/
noncomputable def runEpoch (st : LR) : LR :=
  (fetchBatchIdx st.n_examples st.batch_size).foldl fitBatch st

/-- Structural recursion on the epoch count, embedding
`for epoch in range(n_epochs)`. -/
noncomputable def runEpochs : ℕ → LR → LR
  | 0, st => st
  | k + 1, st => runEpochs k (runEpoch st)

/-- Embeds `LogisticRegression.fit`: `self._create_weights()` then the epoch
loop. -/
noncomputable def fit (st : LR) : LR :=
  runEpochs st.n_epochs (createWeights st)

/-- Embeds `LogisticRegression.predict`:
`self._model(X_test).reshape((-1,))`.  `predict`, `_model`, `_logit` and
`_sigmoid` assign no attribute, so the method is modelled as returning the
prediction vector together with the (unchanged) object state it ran in. -/
noncomputable def predict (st : LR) (X : ℕ → ℕ → ℝ) : (ℕ → ℝ) × LR :=
  (fun i => modelArr st X i, st)

/-- The derivative of the per-example stabilized loss in the logit is
`sigmoid z - y`. -/
lemma hasDerivAt_crossEnt (y z : ℝ) :
    HasDerivAt (crossEnt y) (sigmoid z - y) z := by
  have hfun : crossEnt y = fun u => Real.log (1 + Real.exp u) - y * u := by
    funext u
    rw [crossEnt_eq, logsumexpStable_eq]
  rw [hfun]
  have hlog : HasDerivAt (fun u => Real.log (1 + Real.exp u))
      (Real.exp z / (1 + Real.exp z)) z :=
    ((Real.hasDerivAt_exp z).const_add 1).log (by positivity)
  have hyz : HasDerivAt (fun u => y * u) y z := by
    simpa using (hasDerivAt_id z).const_mul y
  have := hlog.sub hyz
  rwa [← sigmoid_eq_exp_div] at this

/-- Partial derivative of the batch mean loss in the bias: the bias gradient
computed by `_optimize`. -/
lemma hasDerivAt_meanLoss_b (st : LR) (X : ℕ → ℕ → ℝ) (y : ℕ → ℝ) (m : ℕ) :
    HasDerivAt (fun t => meanLoss y (logitArr { st with b := t } X) m)
      (gradB st X y m) st.b := by
  have key : HasDerivAt
      (fun t => (∑ i ∈ Finset.range m,
        crossEnt (y i)
          ((∑ k ∈ Finset.range st.n_inputs, X i k * st.w k) + t)) / (m : ℝ))
      ((∑ i ∈ Finset.range m,
        (sigmoid (logitArr st X i) - y i) * 1) / (m : ℝ)) st.b := by
    apply HasDerivAt.div_const
    apply HasDerivAt.sum
    intro i _
    have hinner : HasDerivAt
        (fun t => (∑ k ∈ Finset.range st.n_inputs, X i k * st.w k) + t)
        1 st.b := by
      simpa using
        (hasDerivAt_id st.b).const_add
          (∑ k ∈ Finset.range st.n_inputs, X i k * st.w k)
    have houter := hasDerivAt_crossEnt (y i)
      ((∑ k ∈ Finset.range st.n_inputs, X i k * st.w k) + st.b)
    have hcomp := houter.comp st.b hinner
    simpa [Function.comp, logitArr] using hcomp
  have hval : (∑ i ∈ Finset.range m,
      (sigmoid (logitArr st X i) - y i) * 1) / (m : ℝ) = gradB st X y m := by
    unfold gradB modelArr
    rw [← neg_div, ← Finset.sum_neg_distrib]
    congr 1
    apply Finset.sum_congr rfl
    intro i _
    ring
  rw [← hval]
  exact key

/-- Partial derivative of the batch mean loss in the `j`-th weight: the `j`-th
weight gradient computed by `_optimize`. -/
lemma hasDerivAt_meanLoss_w (st : LR) (X : ℕ → ℕ → ℝ) (y : ℕ → ℝ) (m : ℕ)
    (j : ℕ) (hj : j < st.n_inputs) :
    HasDerivAt
      (fun t => meanLoss y
        (logitArr { st with w := Function.update st.w j t } X) m)
      (gradW st X y m j) (st.w j) := by
  have hsplit : ∀ (t : ℝ) (i : ℕ),
      (∑ k ∈ Finset.range st.n_inputs, X i k * Function.update st.w j t k)
        = X i j * t + ∑ k ∈ Finset.range st.n_inputs \ {j}, X i k * st.w k := by
    intro t i
    have hup : (fun k => X i k * Function.update st.w j t k)
        = Function.update (fun k => X i k * st.w k) j (X i j * t) := by
      funext k
      by_cases hk : k = j
      · subst hk; simp
      · simp [Function.update_noteq hk]
    calc (∑ k ∈ Finset.range st.n_inputs, X i k * Function.update st.w j t k)
        = ∑ k ∈ Finset.range st.n_inputs,
            Function.update (fun k => X i k * st.w k) j (X i j * t) k := by
          rw [hup]
      _ = X i j * t + ∑ k ∈ Finset.range st.n_inputs \ {j}, X i k * st.w k :=
          Finset.sum_update_of_mem (Finset.mem_range.mpr hj) _ _
  have hfun : (fun t => meanLoss y
      (logitArr { st with w := Function.update st.w j t } X) m)
      = fun t => (∑ i ∈ Finset.range m,
          crossEnt (y i)
            (X i j * t
              + ((∑ k ∈ Finset.range st.n_inputs \ {j}, X i k * st.w k)
                  + st.b))) / (m : ℝ) := by
    funext t
    unfold meanLoss logitArr
    congr 1
    apply Finset.sum_congr rfl
    intro i _
    rw [hsplit t i, add_assoc]
  have hpoint : ∀ i : ℕ,
      X i j * st.w j
        + ((∑ k ∈ Finset.range st.n_inputs \ {j}, X i k * st.w k) + st.b)
        = logitArr st X i := by
    intro i
    have h := hsplit (st.w j) i
    rw [Function.update_eq_self] at h
    unfold logitArr
    rw [h]
    ring
  rw [hfun]
  have key : HasDerivAt
      (fun t => (∑ i ∈ Finset.range m,
        crossEnt (y i)
          (X i j * t
            + ((∑ k ∈ Finset.range st.n_inputs \ {j}, X i k * st.w k)
                + st.b))) / (m : ℝ))
      ((∑ i ∈ Finset.range m,
        (sigmoid (logitArr st X i) - y i) * X i j) / (m : ℝ)) (st.w j) := by
    apply HasDerivAt.div_const
    apply HasDerivAt.sum
    intro i _
    have hinner : HasDerivAt
        (fun t => X i j * t
          + ((∑ k ∈ Finset.range st.n_inputs \ {j}, X i k * st.w k) + st.b))
        (X i j) (st.w j) := by
      simpa using
        (((hasDerivAt_id (st.w j)).const_mul (X i j)).add_const
          ((∑ k ∈ Finset.range st.n_inputs \ {j}, X i k * st.w k) + st.b))
    have houter := hasDerivAt_crossEnt (y i)
      (X i j * st.w j
        + ((∑ k ∈ Finset.range st.n_inputs \ {j}, X i k * st.w k) + st.b))
    have hcomp := houter.comp (st.w j) hinner
    rw [hpoint i] at hcomp
    simpa [Function.comp] using hcomp
  have hval : (∑ i ∈ Finset.range m,
      (sigmoid (logitArr st X i) - y i) * X i j) / (m : ℝ)
      = gradW st X y m j := by
    have hsum : (∑ i ∈ Finset.range m, (sigmoid (logitArr st X i) - y i) * X i j)
        = -∑ i ∈ Finset.range m, X i j * (y i - sigmoid (logitArr st X i)) := by
      rw [← Finset.sum_neg_distrib]
      apply Finset.sum_congr rfl
      intro i _
      ring
    unfold gradW modelArr
    rw [hsum]
    ring
  rw [← hval]
  exact key

/-- C3. One call to `_optimize` on a batch `(X, y)` of `m` rows performs
exactly the fixed-learning-rate update `w' = w - lr*dw`, `b' = b - lr*db`
with `dw = -1/m * Xᵀ(y - sigmoid(Xw+b))` and `db = -mean(y - sigmoid(Xw+b))`,
leaves the learning rate unchanged, and `dw j` / `db` are the partial
derivatives (the analytic gradient) of the batch mean cross-entropy loss in
the `j`-th weight and the bias. -/
theorem C3_optimize_gradient_step (st : LR) (X : ℕ → ℕ → ℝ) (y : ℕ → ℝ)
    (m : ℕ) (j : ℕ) (hj : j < st.n_inputs) :
    (optimize st X y m).w = (fun k => st.w k - st.lr * gradW st X y m k)
    ∧ (optimize st X y m).b = st.b - st.lr * gradB st X y m
    ∧ (optimize st X y m).lr = st.lr
    ∧ HasDerivAt
        (fun t => meanLoss y
          (logitArr { st with w := Function.update st.w j t } X) m)
        (gradW st X y m j) (st.w j)
    ∧ HasDerivAt (fun t => meanLoss y (logitArr { st with b := t } X) m)
        (gradB st X y m) st.b :=
  ⟨rfl, rfl, rfl, hasDerivAt_meanLoss_w st X y m j hj,
    hasDerivAt_meanLoss_b st X y m⟩

/-- A concrete one-example, one-feature trainer state used by witnesses. -/
noncomputable def stOne : LR :=
  { batch_size := 1, lr := 1, n_epochs := 1, n_examples := 1, n_inputs := 1,
    X_train := fun _ _ => 1, y_train := fun _ => 1, w := fun _ => 0, b := 0,
    cross_entropy := fun _ => 0 }

/-- Witness for C3 at the concrete state `stOne`, batch `m = 1`, weight
coordinate `j = 0`. -/
theorem C3_optimize_gradient_step_witness :
    0 < stOne.n_inputs
    ∧ ((optimize stOne (fun _ _ => 1) (fun _ => 1) 1).w
        = (fun k => stOne.w k
            - stOne.lr * gradW stOne (fun _ _ => 1) (fun _ => 1) 1 k)
      ∧ (optimize stOne (fun _ _ => 1) (fun _ => 1) 1).b
        = stOne.b - stOne.lr * gradB stOne (fun _ _ => 1) (fun _ => 1) 1
      ∧ (optimize stOne (fun _ _ => 1) (fun _ => 1) 1).lr = stOne.lr
      ∧ HasDerivAt
          (fun t => meanLoss (fun _ => 1)
            (logitArr { stOne with w := Function.update stOne.w 0 t }
              (fun _ _ => 1)) 1)
          (gradW stOne (fun _ _ => 1) (fun _ => 1) 1 0) (stOne.w 0)
      ∧ HasDerivAt
          (fun t => meanLoss (fun _ => 1)
            (logitArr { stOne with b := t } (fun _ _ => 1)) 1)
          (gradB stOne (fun _ _ => 1) (fun _ => 1) 1) stOne.b) :=
  ⟨Nat.one_pos,
    C3_optimize_gradient_step stOne (fun _ _ => 1) (fun _ => 1) 1 0 Nat.one_pos⟩

lemma chunksAux_nil {α : Type} (fuel s : ℕ) :
    chunksAux (α := α) fuel [] s = [] := by
  cases fuel <;> rfl

/-- The chunks of `l` concatenate back to `l`. -/
lemma chunksAux_flatten {α : Type} (s : ℕ) (hs : 0 < s) :
    ∀ (fuel : ℕ) (l : List α), l.length ≤ fuel →
      (chunksAux fuel l s).flatten = l := by
  intro fuel
  induction fuel with
  | zero =>
    intro l hl
    rw [List.length_eq_zero.mp (Nat.le_zero.mp hl)]
    rfl
  | succ n ih =>
    intro l hl
    cases l with
    | nil => rfl
    | cons x xs =>
      have hdrop : ((x :: xs).drop s).length ≤ n := by
        rw [List.length_drop]
        simp only [List.length_cons] at hl ⊢
        omega
      simp only [chunksAux, List.flatten_cons]
      rw [ih _ hdrop, List.take_append_drop]

/-- Every chunk but the last has length `s`; the last is nonempty and has
length `l.length % s`, read as `s` when `s` divides `l.length`. -/
lemma chunksAux_lengths {α : Type} (s : ℕ) (hs : 0 < s) :
    ∀ (fuel : ℕ) (l : List α), l.length ≤ fuel → l ≠ [] →
      chunksAux fuel l s ≠ []
      ∧ (∀ c ∈ (chunksAux fuel l s).dropLast, c.length = s)
      ∧ ((chunksAux fuel l s).getLast?.map List.length
          = some (if l.length % s = 0 then s else l.length % s)) := by
  intro fuel
  induction fuel with
  | zero =>
    intro l hl hne
    exact absurd (List.length_eq_zero.mp (Nat.le_zero.mp hl)) hne
  | succ n ih =>
    intro l hl hne
    cases l with
    | nil => exact absurd rfl hne
    | cons x xs =>
      by_cases hle : (x :: xs).length ≤ s
      · have hdropnil : (x :: xs).drop s = [] := List.drop_eq_nil_of_le hle
        have htake : (x :: xs).take s = x :: xs := List.take_of_length_le hle
        simp only [chunksAux, hdropnil, chunksAux_nil, htake]
        refine ⟨by simp, by simp, ?_⟩
        have hone : Option.map List.length ([x :: xs] : List (List α)).getLast?
            = some (x :: xs).length := rfl
        rw [hone]
        rcases eq_or_lt_of_le hle with heq | hlt
        · rw [heq, Nat.mod_self, if_pos rfl]
        · rw [Nat.mod_eq_of_lt hlt, if_neg (by simp)]
      · push_neg at hle
        have hdropne : (x :: xs).drop s ≠ [] := by
          intro h
          have hlen := congrArg List.length h
          rw [List.length_drop] at hlen
          simp only [List.length_nil] at hlen
          omega
        have hdroplen : ((x :: xs).drop s).length ≤ n := by
          rw [List.length_drop]
          simp only [List.length_cons] at hl ⊢
          omega
        obtain ⟨hne', hdl', hlast'⟩ := ih _ hdroplen hdropne
        simp only [chunksAux]
        refine ⟨by simp, ?_, ?_⟩
        · intro c hc
          rw [List.dropLast_cons_of_ne_nil hne'] at hc
          rcases List.mem_cons.mp hc with hc | hc
          · rw [hc, List.length_take]
            omega
          · exact hdl' c hc
        · cases hrest : chunksAux n ((x :: xs).drop s) s with
          | nil => exact absurd hrest hne'
          | cons r rs =>
            rw [List.getLast?_cons_cons]
            rw [hrest] at hlast'
            rw [hlast']
            have hmod : ((x :: xs).drop s).length % s = (x :: xs).length % s := by
              rw [List.length_drop]
              exact (Nat.mod_eq_sub_mod (le_of_lt hle)).symm
            rw [hmod]

/-- One batch body changes only `w`, `b` and `cross_entropy`. -/
lemma fitBatch_frame (st : LR) (idxb : List ℕ) :
    (fitBatch st idxb).batch_size = st.batch_size
    ∧ (fitBatch st idxb).lr = st.lr
    ∧ (fitBatch st idxb).n_epochs = st.n_epochs
    ∧ (fitBatch st idxb).n_examples = st.n_examples
    ∧ (fitBatch st idxb).n_inputs = st.n_inputs
    ∧ (fitBatch st idxb).X_train = st.X_train
    ∧ (fitBatch st idxb).y_train = st.y_train :=
  ⟨rfl, rfl, rfl, rfl, rfl, rfl, rfl⟩

lemma foldl_fitBatch_frame (l : List (List ℕ)) :
    ∀ st : LR,
      (l.foldl fitBatch st).batch_size = st.batch_size
      ∧ (l.foldl fitBatch st).lr = st.lr
      ∧ (l.foldl fitBatch st).n_epochs = st.n_epochs
      ∧ (l.foldl fitBatch st).n_examples = st.n_examples
      ∧ (l.foldl fitBatch st).n_inputs = st.n_inputs
      ∧ (l.foldl fitBatch st).X_train = st.X_train
      ∧ (l.foldl fitBatch st).y_train = st.y_train := by
  induction l with
  | nil => intro st; exact ⟨rfl, rfl, rfl, rfl, rfl, rfl, rfl⟩
  | cons idxb l ih =>
    intro st
    obtain ⟨h1, h2, h3, h4, h5, h6, h7⟩ := ih (fitBatch st idxb)
    simp only [List.foldl_cons]
    exact ⟨h1, h2, h3, h4, h5, h6, h7⟩

lemma runEpochs_frame (k : ℕ) :
    ∀ st : LR,
      (runEpochs k st).batch_size = st.batch_size
      ∧ (runEpochs k st).lr = st.lr
      ∧ (runEpochs k st).n_epochs = st.n_epochs
      ∧ (runEpochs k st).n_examples = st.n_examples
      ∧ (runEpochs k st).n_inputs = st.n_inputs
      ∧ (runEpochs k st).X_train = st.X_train
      ∧ (runEpochs k st).y_train = st.y_train := by
  induction k with
  | zero => intro st; exact ⟨rfl, rfl, rfl, rfl, rfl, rfl, rfl⟩
  | succ n ih =>
    intro st
    obtain ⟨a1, a2, a3, a4, a5, a6, a7⟩ := ih (runEpoch st)
    obtain ⟨b1, b2, b3, b4, b5, b6, b7⟩ :=
      foldl_fitBatch_frame (fetchBatchIdx st.n_examples st.batch_size) st
    exact ⟨a1.trans b1, a2.trans b2, a3.trans b3, a4.trans b4, a5.trans b5,
      a6.trans b6, a7.trans b7⟩

/-- Training never touches the stored data, the shapes, the batch size, the
learning rate or the epoch count. -/
lemma fit_frame (st : LR) :
    (fit st).batch_size = st.batch_size
    ∧ (fit st).lr = st.lr
    ∧ (fit st).n_epochs = st.n_epochs
    ∧ (fit st).n_examples = st.n_examples
    ∧ (fit st).n_inputs = st.n_inputs
    ∧ (fit st).X_train = st.X_train
    ∧ (fit st).y_train = st.y_train := by
  obtain ⟨a1, a2, a3, a4, a5, a6, a7⟩ := runEpochs_frame st.n_epochs (createWeights st)
  exact ⟨a1, a2, a3, a4, a5, a6, a7⟩

/-- C4. For `n ≥ 1` examples and batch size `s ≥ 1`, the index batches yielded
by `_fetch_batch` partition `range n` into contiguous runs in increasing
order, covering every index exactly once; every batch has length `s` except
possibly the last, whose length is `n % s` when `s` does not divide `n` (and
`s` otherwise); every epoch folds over exactly these batches of the stored
arrays, and training never re-shuffles the stored arrays: the one shuffle
happens in `get_dataset`, before `fit`. -/
theorem C4_fetch_batch_partition (n s : ℕ) (hn : 1 ≤ n) (hs : 1 ≤ s)
    (st : LR) :
    (fetchBatchIdx n s).flatten = List.range n
    ∧ (∀ c ∈ (fetchBatchIdx n s).dropLast, c.length = s)
    ∧ fetchBatchIdx n s ≠ []
    ∧ (fetchBatchIdx n s).getLast?.map List.length
        = some (if n % s = 0 then s else n % s)
    ∧ runEpoch st
        = (fetchBatchIdx st.n_examples st.batch_size).foldl fitBatch st
    ∧ (fit st).X_train = st.X_train
    ∧ (fit st).y_train = st.y_train := by
  have hne : (List.range n) ≠ [] := by
    rw [Ne, List.range_eq_nil]
    omega
  obtain ⟨h1, h2, h3⟩ :=
    chunksAux_lengths s hs n (List.range n) (List.length_range n).le hne
  rw [List.length_range] at h3
  obtain ⟨_, _, _, _, _, f6, f7⟩ := fit_frame st
  exact ⟨chunksAux_flatten s hs n (List.range n) (List.length_range n).le,
    h2, h1, h3, rfl, f6, f7⟩

/-- Witness for C4 at `n = 3`, `s = 2`, state `stOne`. -/
theorem C4_fetch_batch_partition_witness :
    1 ≤ 3 ∧ 1 ≤ 2
    ∧ ((fetchBatchIdx 3 2).flatten = List.range 3
      ∧ (∀ c ∈ (fetchBatchIdx 3 2).dropLast, c.length = 2)
      ∧ fetchBatchIdx 3 2 ≠ []
      ∧ (fetchBatchIdx 3 2).getLast?.map List.length
          = some (if 3 % 2 = 0 then 2 else 3 % 2)
      ∧ runEpoch stOne
          = (fetchBatchIdx stOne.n_examples stOne.batch_size).foldl fitBatch stOne
      ∧ (fit stOne).X_train = stOne.X_train
      ∧ (fit stOne).y_train = stOne.y_train) :=
  ⟨by decide, by decide,
    by
      obtain ⟨g1, g2, g3, g4, g5, g6, g7⟩ :=
        C4_fetch_batch_partition 3 2 (by decide) (by decide) stOne
      exact ⟨g1, g2, g3, g4, g5, g6, g7⟩⟩

/-- C7. Immediately after `_create_weights` the weight vector is all zeros
(read on `[0, n_inputs)`) and the bias is zero; `fit` calls it first and each
subsequent gradient step replaces only the parameters `w`, `b` (the in-place
`param[:] = param - lr * grad`), leaving every other attribute of the object
untouched. -/
theorem C7_create_weights_zero (st : LR) (X : ℕ → ℕ → ℝ) (y : ℕ → ℝ)
    (m : ℕ) :
    (∀ j, (createWeights st).w j = 0)
    ∧ (createWeights st).b = 0
    ∧ fit st = runEpochs st.n_epochs (createWeights st)
    ∧ (optimize st X y m).w = (fun j => st.w j - st.lr * gradW st X y m j)
    ∧ (optimize st X y m).b = st.b - st.lr * gradB st X y m
    ∧ (optimize st X y m).X_train = st.X_train
    ∧ (optimize st X y m).y_train = st.y_train
    ∧ (optimize st X y m).lr = st.lr
    ∧ (optimize st X y m).batch_size = st.batch_size
    ∧ (optimize st X y m).n_epochs = st.n_epochs
    ∧ (optimize st X y m).n_examples = st.n_examples
    ∧ (optimize st X y m).n_inputs = st.n_inputs
    ∧ (optimize st X y m).cross_entropy = st.cross_entropy :=
  ⟨fun _ => rfl, rfl, rfl, rfl, rfl, rfl, rfl, rfl, rfl, rfl, rfl, rfl, rfl⟩

/-- C8. `fit` is a total function that initializes the weights and then runs
exactly `n_epochs` epoch passes (`runEpochs` peels one epoch per step and
stops at zero); it has no convergence check, and the learning rate, epoch
count and batch size are the same after the whole run as before it. -/
theorem C8_fit_fixed_epochs (st : LR) :
    fit st = runEpochs st.n_epochs (createWeights st)
    ∧ (∀ k s0, runEpochs (k + 1) s0 = runEpochs k (runEpoch s0))
    ∧ (∀ s0, runEpochs 0 s0 = s0)
    ∧ (fit st).lr = st.lr
    ∧ (fit st).n_epochs = st.n_epochs
    ∧ (fit st).batch_size = st.batch_size := by
  obtain ⟨f1, f2, f3, _, _, _, _⟩ := fit_frame st
  exact ⟨rfl, fun k s0 => rfl, fun s0 => rfl, f2, f3, f1⟩

/-- C9. `get_dataset` with `shuffle=True` reindexes the stored feature matrix
and label vector by one and the same index list `perm`: row `i` of the stored
data and its label both come from original example `perm[i]`, so the pairing
of examples with labels is preserved. -/
theorem C9_shuffle_same_permutation (st : LR) (X : ℕ → ℕ → ℝ) (y : ℕ → ℝ)
    (m n : ℕ) (perm : List ℕ) (i : ℕ) :
    (getDataset st X y m n true perm).X_train i = (fun j => X (perm.getD i 0) j)
    ∧ (getDataset st X y m n true perm).y_train i = y (perm.getD i 0)
    ∧ ∃ k, ((getDataset st X y m n true perm).X_train i = fun j => X k j)
        ∧ (getDataset st X y m n true perm).y_train i = y k :=
  ⟨rfl, rfl, perm.getD i 0, rfl, rfl⟩

/-- C10. `predict` (through `_model`, `_logit`, `_sigmoid`) assigns no
attribute: it returns the prediction vector `sigmoid(logit(X_test))` and
leaves the object state exactly as it was. -/
theorem C10_predict_frame (st : LR) (X : ℕ → ℕ → ℝ) :
    (predict st X).2 = st
    ∧ (predict st X).1 = (fun i => sigmoid (logitArr st X i)) :=
  ⟨rfl, rfl⟩

/-- Modelled from the spec: the Python `random` module's seeded generator,
which is library code outside `src/`.  A linear congruential step standing in
for the seeded pseudo-random stream. -/
def lcgNext (s : ℕ) : ℕ := (1103515245 * s + 12345) % 2 ^ 31

/-- Modelled from the spec: `random.shuffle(idx)` — "Shuffling with a fixed
seed reproduces identical batch order".  A Fisher-Yates shuffle driven by the
deterministic seeded stream `lcgNext`: a pure function of the seed and the
list. -/
def shuffleAux : ℕ → ℕ → List ℕ → List ℕ
  | 0, _, _ => []
  | _ + 1, _, [] => []
  | fuel + 1, seed, x :: xs =>
      let s := lcgNext seed
      let k := s % (x :: xs).length
      (x :: xs).getD k 0 :: shuffleAux fuel s ((x :: xs).take k ++ (x :: xs).drop (k + 1))

def shuffleSeed (seed : ℕ) (l : List ℕ) : List ℕ := shuffleAux l.length seed l

/-- One full training run: `get_dataset(X, y, shuffle=True)` with the
shuffled order drawn from the seeded generator, followed by `fit()`. -/
noncomputable def runPipeline (seed : ℕ) (st : LR) (X : ℕ → ℕ → ℝ)
    (y : ℕ → ℝ) (m n : ℕ) : LR :=
  fit (getDataset st X y m n true (shuffleSeed seed (List.range m)))

/-- C6. Two runs of `get_dataset(..., shuffle=True)` + `fit()` on identical
inputs and identical generator seed shuffle into the identical example order,
hence present the identical batch sequence, hence end with the identical
weights and bias. -/
theorem C6_fixed_seed_deterministic (seed : ℕ) (st : LR) (X : ℕ → ℕ → ℝ)
    (y : ℕ → ℝ) (m n : ℕ) (st1 st2 : LR)
    (h1 : st1 = runPipeline seed st X y m n)
    (h2 : st2 = runPipeline seed st X y m n) :
    st1.w = st2.w ∧ st1.b = st2.b ∧ st1.X_train = st2.X_train
    ∧ st1.y_train = st2.y_train := by
  subst h1
  subst h2
  exact ⟨rfl, rfl, rfl, rfl⟩

/-- Witness for C6: two literal runs with seed 71 on a one-example dataset. -/
theorem C6_fixed_seed_deterministic_witness :
    runPipeline 71 stOne (fun _ _ => 1) (fun _ => 1) 1 1
      = runPipeline 71 stOne (fun _ _ => 1) (fun _ => 1) 1 1
    ∧ ((runPipeline 71 stOne (fun _ _ => 1) (fun _ => 1) 1 1).w
        = (runPipeline 71 stOne (fun _ _ => 1) (fun _ => 1) 1 1).w
      ∧ (runPipeline 71 stOne (fun _ _ => 1) (fun _ => 1) 1 1).b
        = (runPipeline 71 stOne (fun _ _ => 1) (fun _ => 1) 1 1).b
      ∧ (runPipeline 71 stOne (fun _ _ => 1) (fun _ => 1) 1 1).X_train
        = (runPipeline 71 stOne (fun _ _ => 1) (fun _ => 1) 1 1).X_train
      ∧ (runPipeline 71 stOne (fun _ _ => 1) (fun _ => 1) 1 1).y_train
        = (runPipeline 71 stOne (fun _ _ => 1) (fun _ => 1) 1 1).y_train) :=
  ⟨rfl, C6_fixed_seed_deterministic 71 stOne (fun _ _ => 1) (fun _ => 1) 1 1
    _ _ rfl rfl⟩

/-- Embeds `CustomDataset` of `src/data_torch.py`: the two tables returned by
`data_reader()`.  The `transform` and `target_transform` attributes are
function values passed alongside (the label transform takes the whole
`CustomDataset`, which a Lean structure cannot store recursively). -/
structure CustomDataset (α β : Type) where
  examples : List α
  labels : List β

/-- Embeds `CustomDataset.__len__`: `len(self.labels)`. -/
def CustomDataset.len {α β : Type} (ds : CustomDataset α β) : ℕ :=
  ds.labels.length

/-- Embeds `CustomDataset.__getitem__`.  Out-of-range indexing raises in
Python, modelled as `none`.  Note the label branch follows the source:
`label = self.target_transform(self)` — the transform is applied to `self`,
not to `label`. -/
def CustomDataset.getitem {α β : Type} (ds : CustomDataset α β)
    (transform : Option (α → α))
    (target_transform : Option (CustomDataset α β → β)) (idx : ℕ) :
    Option (α × β) :=
  if h : idx < ds.examples.length ∧ idx < ds.labels.length then
    let ex := ds.examples.get ⟨idx, h.1⟩
    let lb := ds.labels.get ⟨idx, h.2⟩
    let ex2 := match transform with
      | some f => f ex
      | none => ex
    let lb2 := match target_transform with
      | some f => f ds
      | none => lb
    some (ex2, lb2)
  else none

/-- C5. With a non-`None` `target_transform f`, `__getitem__(idx)` returns as
label `f` applied to the dataset object itself, not to the label value at
`idx`; with `target_transform` `None` the label at `idx` is returned
unchanged. -/
theorem C5_target_transform_applied_to_self {α β : Type}
    (ds : CustomDataset α β) (t : Option (α → α))
    (f : CustomDataset α β → β) (idx : ℕ)
    (h1 : idx < ds.examples.length) (h2 : idx < ds.labels.length) :
    (ds.getitem t (some f) idx).map Prod.snd = some (f ds)
    ∧ (ds.getitem t none idx).map Prod.snd
        = some (ds.labels.get ⟨idx, h2⟩) := by
  unfold CustomDataset.getitem
  rw [dif_pos ⟨h1, h2⟩]
  cases t <;> simp <;> exact ⟨h1, h2⟩

/-- Witness for C5 on a concrete two-row dataset with `f = len`. -/
theorem C5_target_transform_applied_to_self_witness :
    0 < (CustomDataset.mk [10, 20] [5, 7] : CustomDataset ℕ ℕ).examples.length
    ∧ 0 < (CustomDataset.mk [10, 20] [5, 7] : CustomDataset ℕ ℕ).labels.length
    ∧ (((CustomDataset.mk [10, 20] [5, 7] : CustomDataset ℕ ℕ).getitem none
          (some CustomDataset.len) 0).map Prod.snd
        = some (CustomDataset.len (CustomDataset.mk [10, 20] [5, 7]))
      ∧ ((CustomDataset.mk [10, 20] [5, 7] : CustomDataset ℕ ℕ).getitem none
          none 0).map Prod.snd
        = some ((CustomDataset.mk [10, 20] [5, 7] : CustomDataset ℕ ℕ).labels.get
            ⟨0, by decide⟩)) :=
  ⟨by decide, by decide,
    C5_target_transform_applied_to_self (CustomDataset.mk [10, 20] [5, 7])
      none CustomDataset.len 0 (by decide) (by decide)⟩
